import Mathlib

/-!
Verification of the `live` development file-server (Go).

Byte strings from the Go source are modelled as `List Char`.  The repository
contains two injection variants (anchor `</body>` in `main.go`, anchor
`<head>` in the second source file); both are embedded below.
-/

/-- Model of Go `bytes.Contains(l, sub)` / `strings.Contains(l, sub)`:
`sub` occurs as a contiguous subsequence of `l`. -/
def containsSub (l sub : List Char) : Bool :=
  sub.isPrefixOf l ||
    (match l with
     | [] => false
     | _ :: rest => containsSub rest sub)

/-- Model of `isIgnored(path, ignored)` from `main.go` (first variant):
some entry is non-empty and contained in `path`. -/
def isIgnored (path : List Char) (ignored : List (List Char)) : Bool :=
  ignored.any fun ex => !ex.isEmpty && containsSub path ex

/-- Model of `isExcluded(path, excludes)` from `main.go` (second variant);
its body is identical to `isIgnored`. -/
def isExcluded (path : List Char) (excludes : List (List Char)) : Bool :=
  excludes.any fun ex => !ex.isEmpty && containsSub path ex

/-- Model of Go `bytes.Replace(l, old, nw, 1)`: replace the first occurrence
of `old` in `l` by `nw` (return `l` unchanged when `old` does not occur). -/
def replaceFirst (l old nw : List Char) : List Char :=
  match l with
  | [] => if old.isPrefixOf [] then nw else []
  | c :: rest =>
    if old.isPrefixOf (c :: rest) then nw ++ (c :: rest).drop old.length
    else c :: replaceFirst rest old nw

/-- Number of positions of `l` at which `pat` occurs (occurrences may
overlap).  Used to state "contains the snippet exactly once". -/
def occCount (pat l : List Char) : Nat :=
  ((Finset.range (l.length + 1)).filter
    (fun i => pat.isPrefixOf (l.drop i) = true)).card

/-- `pat` has no non-trivial border: no proper non-empty prefix of `pat` is
also a suffix of `pat`.  A pattern with this property cannot overlap itself,
so splicing it once into a document that does not contain it yields exactly
one occurrence. -/
def borderFreeB (pat : List Char) : Bool :=
  (List.range pat.length).all fun k =>
    decide (k = 0) || !((pat.drop (pat.length - k)).isPrefixOf pat)

theorem take_app_le (x y : List Char) (k : Nat) (h : k ≤ x.length) :
    (x ++ y).take k = x.take k := by
  rw [List.take_append_eq_append_take]
  have h0 : k - x.length = 0 := by omega
  rw [h0]
  simp

theorem drop_app_le (x y : List Char) (k : Nat) (h : k ≤ x.length) :
    (x ++ y).drop k = x.drop k ++ y := by
  rw [List.drop_append_eq_append_drop]
  have h0 : k - x.length = 0 := by omega
  rw [h0]
  simp

theorem drop_app_ge (x y : List Char) (k : Nat) (h : x.length ≤ k) :
    (x ++ y).drop k = y.drop (k - x.length) := by
  rw [List.drop_append_eq_append_drop, List.drop_eq_nil_of_le h]
  simp

theorem pre_of_app (p x y : List Char) (h : p <+: x ++ y)
    (hl : p.length ≤ x.length) : p <+: x := by
  obtain ⟨t, ht⟩ := h
  have h1 : (x ++ y).take p.length = p := by
    rw [← ht]
    exact List.take_left' rfl
  rw [take_app_le x y _ hl] at h1
  exact h1 ▸ ( List.take_prefix p.length x)

theorem inf_of_pre_drop (pat X : List Char) (j : Nat) (h : pat <+: X.drop j) :
    pat <:+: X := by
  obtain ⟨t, ht⟩ := h
  refine ⟨X.take j, t, ?_⟩
  rw [List.append_assoc, ht, List.take_append_drop]

theorem inf_app_left (pat A B : List Char) (h : pat <:+: A) :
    pat <:+: A ++ B := by
  obtain ⟨u, v, huv⟩ := h
  exact ⟨u, v ++ B, by rw [← huv]; simp⟩

theorem inf_app_right (pat A B : List Char) (h : pat <:+: B) :
    pat <:+: A ++ B := by
  obtain ⟨u, v, huv⟩ := h
  exact ⟨A ++ u, v, by rw [← huv]; simp⟩

theorem containsSub_iff (l sub : List Char) :
    containsSub l sub = true ↔ sub <:+: l := by
  induction l with
  | nil =>
    constructor
    · intro h
      rw [containsSub] at h
      have hpre : sub <+: ([] : List Char) :=
        List.isPrefixOf_iff_prefix.mp (by simpa using h)
      obtain ⟨t, ht⟩ := hpre
      have hs : sub = [] := by
        rcases List.append_eq_nil.mp ht with ⟨h1, _⟩
        exact h1
      exact ⟨[], [], by simp [hs]⟩
    · rintro ⟨u, v, huv⟩
      have hs : sub = [] := by
        rcases List.append_eq_nil.mp ((List.append_assoc u sub v) ▸ huv)
          with ⟨_, h2⟩
        rcases List.append_eq_nil.mp h2 with ⟨h3, _⟩
        exact h3
      subst hs
      rw [containsSub]
      simp [List.isPrefixOf]
  | cons c rest ih =>
    rw [containsSub]
    constructor
    · intro h
      rcases Bool.or_eq_true_iff.mp h with h1 | h2
      · obtain ⟨t, ht⟩ := List.isPrefixOf_iff_prefix.mp h1
        exact ⟨[], t, by simpa using ht⟩
      · obtain ⟨u, v, huv⟩ := ih.mp h2
        exact ⟨c :: u, v, by simp [huv]⟩
    · rintro ⟨u, v, huv⟩
      apply Bool.or_eq_true_iff.mpr
      cases u with
      | nil =>
        left
        rw [ List.isPrefixOf_iff_prefix]
        exact ⟨v, by simpa using huv⟩
      | cons c' u' =>
        right
        have hrest : u' ++ sub ++ v = rest := by
          have := huv
          simp only [List.cons_append] at this
          exact (List.cons.injEq _ _ _ _ ▸ this).2
        exact ih.mpr ⟨u', v, hrest⟩

theorem borderFreeB_spec {pat : List Char} (hb : borderFreeB pat = true) :
    ∀ k, 0 < k → k < pat.length → pat.drop (pat.length - k) ≠ pat.take k := by
  intro k hk hkn heq
  have h1 := List.all_eq_true.mp hb k (List.mem_range.mpr hkn)
  have h2 : (pat.drop (pat.length - k)).isPrefixOf pat = true := by
    rw [ List.isPrefixOf_iff_prefix, heq]
    exact List.take_prefix k pat
  rw [decide_eq_false (by omega : ¬ k = 0), h2] at h1
  simp at h1

theorem replaceFirst_splits (old nw : List Char) (h0 : old ≠ []) :
    ∀ l : List Char, containsSub l old = true →
      ∃ p s, l = p ++ old ++ s ∧ replaceFirst l old nw = p ++ nw ++ s ∧
        ∀ j, j < p.length → old.isPrefixOf (l.drop j) = false := by
  intro l
  induction l with
  | nil =>
    intro h
    exfalso
    obtain ⟨u, v, huv⟩ := (containsSub_iff [] old).mp h
    rcases List.append_eq_nil.mp ((List.append_assoc u old v) ▸ huv)
      with ⟨_, h2⟩
    rcases List.append_eq_nil.mp h2 with ⟨h3, _⟩
    exact h0 h3
  | cons c rest ih =>
    intro h
    by_cases hp : old.isPrefixOf (c :: rest) = true
    · obtain ⟨t, ht⟩ := List.isPrefixOf_iff_prefix.mp hp
      refine ⟨[], (c :: rest).drop old.length, ?_, ?_, ?_⟩
      · rw [← ht, List.drop_left]
        simp
      · rw [replaceFirst, if_pos hp]
        simp
      · intro j hj
        simp at hj
    · have hrest : containsSub rest old = true := by
        rw [containsSub] at h
        rcases Bool.or_eq_true_iff.mp h with h1 | h2
        · exact absurd h1 hp
        · exact h2
      obtain ⟨p, s, hl, hr, hfirst⟩ := ih hrest
      refine ⟨c :: p, s, ?_, ?_, ?_⟩
      · simp [hl]
      · rw [replaceFirst, if_neg hp, hr]
        simp
      · intro j hj
        cases j with
        | zero =>
          simpa using Bool.not_eq_true _ ▸ hp
        | succ j' =>
          have := hfirst j' (by simpa using hj)
          simpa using this

theorem occCount_splice (pat A B : List Char) (hn : 0 < pat.length)
    (hbf : borderFreeB pat = true)
    (hni : containsSub (A ++ B) pat = false) :
    occCount pat (A ++ pat ++ B) = 1 := by
  have hninf : ¬ pat <:+: (A ++ B) := by
    intro hc
    rw [← containsSub_iff] at hc
    rw [hc] at hni
    cases hni
  rw [occCount, Finset.card_eq_one]
  refine ⟨A.length, ?_⟩
  rw [Finset.eq_singleton_iff_unique_mem]
  constructor
  · rw [Finset.mem_filter, Finset.mem_range]
    constructor
    · simp
      omega
    · show pat.isPrefixOf ((A ++ pat ++ B).drop A.length) = true
      have hd : (A ++ pat ++ B).drop A.length = pat ++ B := by
        rw [List.append_assoc, List.drop_left]
      rw [hd, List.isPrefixOf_iff_prefix]
      exact List.prefix_append pat B
  · intro j hj
    rw [Finset.mem_filter, Finset.mem_range] at hj
    obtain ⟨hjr, hp⟩ := hj
    have hpre : pat <+: (A ++ pat ++ B).drop j :=
      List.isPrefixOf_iff_prefix.mp hp
    by_contra hne
    rcases Nat.lt_or_ge j A.length with hjA | hjA
    · have hd : (A ++ pat ++ B).drop j = A.drop j ++ (pat ++ B) := by
        rw [List.append_assoc, drop_app_le _ _ _ (by omega)]
      rw [hd] at hpre
      rcases le_or_lt (j + pat.length) A.length with hfit | hfit
      · -- the occurrence would lie wholly inside A
        apply hninf
        apply inf_app_left
        apply inf_of_pre_drop pat A j
        exact pre_of_app _ _ _ hpre (by simp; omega)
      · -- the occurrence straddles the boundary A / pat : border of pat
        obtain ⟨t, ht⟩ := hpre
        have hdj : (A.drop j).length = A.length - j := by simp
        have h2 : pat.drop (A.length - j) ++ t = pat ++ B := by
          have hc := congrArg (List.drop (A.length - j)) ht
          rw [drop_app_le pat t _ (by omega)] at hc
          rw [drop_app_ge (A.drop j) (pat ++ B) _ hdj.le] at hc
          rw [hdj, Nat.sub_self, List.drop_zero] at hc
          exact hc
        have h3 : pat.drop (A.length - j) =
            pat.take (pat.length - (A.length - j)) := by
          have hlen1 : (pat.drop (A.length - j)).length
              = pat.length - (A.length - j) := by simp
          have hc := congrArg (List.take (pat.length - (A.length - j))) h2
          rw [take_app_le (pat.drop (A.length - j)) t _ hlen1.ge] at hc
          rw [List.take_of_length_le hlen1.le] at hc
          rw [take_app_le pat B _ (by omega)] at hc
          exact hc
        have hb := borderFreeB_spec hbf (pat.length - (A.length - j))
          (by omega) (by omega)
        rw [show pat.length - (pat.length - (A.length - j)) = A.length - j
          by omega] at hb
        exact hb h3
    · rcases Nat.lt_or_ge j (A.length + pat.length) with hlt | hge
      · -- the occurrence starts inside the spliced copy : border of pat
        have hd : (A ++ pat ++ B).drop j = pat.drop (j - A.length) ++ B := by
          rw [List.append_assoc, drop_app_ge _ _ _ (by omega),
              drop_app_le _ _ _ (by omega)]
        rw [hd] at hpre
        obtain ⟨t, ht⟩ := hpre
        have h3 : pat.take (pat.length - (j - A.length)) =
            pat.drop (j - A.length) := by
          have hlen1 : (pat.drop (j - A.length)).length
              = pat.length - (j - A.length) := by simp
          have hc := congrArg (List.take (pat.length - (j - A.length))) ht
          rw [take_app_le pat t _ (by omega)] at hc
          rw [take_app_le (pat.drop (j - A.length)) B _ hlen1.ge] at hc
          rw [List.take_of_length_le hlen1.le] at hc
          exact hc
        have hb := borderFreeB_spec hbf (pat.length - (j - A.length))
          (by omega) (by omega)
        rw [show pat.length - (pat.length - (j - A.length)) = j - A.length
          by omega] at hb
        exact hb h3.symm
      · -- the occurrence would lie wholly inside B
        apply hninf
        apply inf_app_right
        have hd : (A ++ pat ++ B).drop j =
            B.drop (j - A.length - pat.length) := by
          rw [List.append_assoc, drop_app_ge _ _ _ (by omega),
              drop_app_ge _ _ _ (by omega)]
        rw [hd] at hpre
        exact inf_of_pre_drop pat B _ hpre

/-- Reload snippet used by `injectReload` in `main.go` (both `main.go`
variants carry this same snippet and use the `</body>` anchor). -/
def snippet : List Char :=
  ("<script>\n    const es = new EventSource(\"/__livereload\");\n    es.onmessage = () => location.reload();\n</script>").data

/-- Anchor marker of the `main.go` variants. -/
def bodyClose : List Char := ("</body>").data

/-- Model of `injectReload` from `main.go`: splice the snippet immediately
before the first `</body>`; if the anchor is absent, append the snippet. -/
def injectReload (html : List Char) : List Char :=
  if containsSub html bodyClose then
    replaceFirst html bodyClose (snippet ++ bodyClose)
  else html ++ snippet

namespace HeadVariant

/-- Reload snippet of the `<head>`-anchored variant (with asset
cache-busting), transcribed from the second source file. -/
def snippet : List Char :=
  ("<script>\nif(window.fetch)\x7bconst o=window.fetch;window.fetch=(...a)=>\x7bif(typeof a[0]===\"string\"&&a[0].endsWith(\".wasm\"))a[0]=a[0].split(\"?\")[0]+\"?_=\"+Date.now();return o(...a)\x7d\x7d;const e=new EventSource(\"/__livereload\");e.onmessage=(ev)=>\x7bif(ev.data!==\"reload\")return;const n=Date.now();document.querySelectorAll(\"script[src], link[rel=stylesheet]\").forEach(el=>\x7bif(el.src)el.src=el.src.split(\"?\")[0]+\"?_=\"+n;if(el.href)el.href=el.href.split(\"?\")[0]+\"?_=\"+n\x7d),location.reload()\x7d;</script>").data

/-- Anchor marker of the `<head>`-anchored variant. -/
def headOpen : List Char := ("<head>").data

/-- Model of `injectReload` from the `<head>`-anchored variant: splice the
snippet immediately after the first `<head>`; append when absent. -/
def injectReload (html : List Char) : List Char :=
  if containsSub html headOpen then
    replaceFirst html headOpen (headOpen ++ snippet)
  else html ++ snippet

end HeadVariant

set_option maxRecDepth 10000 in
theorem snippet_borderFree : borderFreeB snippet = true := by decide

set_option maxRecDepth 10000 in
theorem headSnippet_borderFree :
    borderFreeB HeadVariant.snippet = true := by decide

/-- Claim C10: `injectReload` never removes, reorders, or alters any byte of
its input: for every document `D` (both variants) the output decomposes as
`p ++ snippet ++ s` with `p ++ s = D`. -/
theorem injectReload_frame (D : List Char) :
    (∃ p s, injectReload D = p ++ snippet ++ s ∧ p ++ s = D) ∧
    (∃ p s, HeadVariant.injectReload D = p ++ HeadVariant.snippet ++ s ∧
      p ++ s = D) := by
  constructor
  · by_cases h : containsSub D bodyClose = true
    · obtain ⟨p, s, hl, hr, _⟩ :=
        replaceFirst_splits bodyClose (snippet ++ bodyClose) (by decide) D h
      refine ⟨p, bodyClose ++ s, ?_, ?_⟩
      · rw [injectReload, if_pos h, hr]
        simp
      · rw [hl]
        simp
    · refine ⟨D, [], ?_, by simp⟩
      rw [injectReload, if_neg h]
      simp
  · by_cases h : containsSub D HeadVariant.headOpen = true
    · obtain ⟨p, s, hl, hr, _⟩ := replaceFirst_splits HeadVariant.headOpen
        (HeadVariant.headOpen ++ HeadVariant.snippet) (by decide) D h
      refine ⟨p ++ HeadVariant.headOpen, s, ?_, ?_⟩
      · rw [HeadVariant.injectReload, if_pos h, hr]
        simp
      · rw [hl]
    · refine ⟨D, [], ?_, by simp⟩
      rw [HeadVariant.injectReload, if_neg h]
      simp

set_option maxRecDepth 10000 in
/-- Claim C3: for a document `D` that does not already contain the snippet,
`injectReload D` contains the snippet exactly once; when the anchor is
present the snippet is spliced at the first anchor occurrence (before
`</body>` in the `main.go` variant, after `<head>` in the other variant),
and when the anchor is absent the snippet is appended at the end. -/
theorem injectReload_snippet_once (D : List Char)
    (h1 : containsSub D snippet = false)
    (h2 : containsSub D HeadVariant.snippet = false) :
    (occCount snippet (injectReload D) = 1 ∧
      (containsSub D bodyClose = true →
        ∃ p s, D = p ++ bodyClose ++ s ∧
          injectReload D = p ++ snippet ++ (bodyClose ++ s) ∧
          ∀ j, j < p.length → bodyClose.isPrefixOf (D.drop j) = false) ∧
      (containsSub D bodyClose = false → injectReload D = D ++ snippet)) ∧
    (occCount HeadVariant.snippet (HeadVariant.injectReload D) = 1 ∧
      (containsSub D HeadVariant.headOpen = true →
        ∃ p s, D = p ++ HeadVariant.headOpen ++ s ∧
          HeadVariant.injectReload D =
            (p ++ HeadVariant.headOpen) ++ HeadVariant.snippet ++ s ∧
          ∀ j, j < p.length →
            HeadVariant.headOpen.isPrefixOf (D.drop j) = false) ∧
      (containsSub D HeadVariant.headOpen = false →
        HeadVariant.injectReload D = D ++ HeadVariant.snippet)) := by
  constructor
  · by_cases h : containsSub D bodyClose = true
    · obtain ⟨p, s, hl, hr, hfirst⟩ :=
        replaceFirst_splits bodyClose (snippet ++ bodyClose) (by decide) D h
      have hout : injectReload D = p ++ snippet ++ (bodyClose ++ s) := by
        rw [injectReload, if_pos h, hr]
        simp
      refine ⟨?_, fun _ => ⟨p, s, hl, hout, hfirst⟩, fun hc => ?_⟩
      · rw [hout]
        apply occCount_splice snippet p (bodyClose ++ s) (by decide)
          snippet_borderFree
        rw [show p ++ (bodyClose ++ s) = D by rw [hl]; simp]
        exact h1
      · rw [hc] at h
        cases h
    · have hout : injectReload D = D ++ snippet := by
        rw [injectReload, if_neg h]
      refine ⟨?_, fun hc => absurd hc h, fun _ => hout⟩
      rw [hout, show D ++ snippet = D ++ snippet ++ [] by simp]
      apply occCount_splice snippet D [] (by decide) snippet_borderFree
      rw [List.append_nil]
      exact h1
  · by_cases h : containsSub D HeadVariant.headOpen = true
    · obtain ⟨p, s, hl, hr, hfirst⟩ := replaceFirst_splits HeadVariant.headOpen
        (HeadVariant.headOpen ++ HeadVariant.snippet) (by decide) D h
      have hout : HeadVariant.injectReload D =
          (p ++ HeadVariant.headOpen) ++ HeadVariant.snippet ++ s := by
        rw [HeadVariant.injectReload, if_pos h, hr]
        simp
      refine ⟨?_, fun _ => ⟨p, s, hl, hout, hfirst⟩, fun hc => ?_⟩
      · rw [hout]
        apply occCount_splice HeadVariant.snippet (p ++ HeadVariant.headOpen) s
          (by decide) headSnippet_borderFree
        rw [show p ++ HeadVariant.headOpen ++ s = D by rw [hl]]
        exact h2
      · rw [hc] at h
        cases h
    · have hout : HeadVariant.injectReload D = D ++ HeadVariant.snippet := by
        rw [HeadVariant.injectReload, if_neg h]
      refine ⟨?_, fun hc => absurd hc h, fun _ => hout⟩
      rw [hout, show D ++ HeadVariant.snippet
        = D ++ HeadVariant.snippet ++ [] by simp]
      apply occCount_splice HeadVariant.snippet D [] (by decide)
        headSnippet_borderFree
      rw [List.append_nil]
      exact h2

/-- Sample document used to witness the injection claims. -/
def sampleDoc : List Char := ("<html><head></head><body>x</body></html>").data

set_option maxRecDepth 10000 in
/-- Witness for C3 at a concrete document containing both anchors. -/
theorem injectReload_snippet_once_wit :
    containsSub sampleDoc snippet = false ∧
    containsSub sampleDoc HeadVariant.snippet = false ∧
    ((occCount snippet (injectReload sampleDoc) = 1 ∧
      (containsSub sampleDoc bodyClose = true →
        ∃ p s, sampleDoc = p ++ bodyClose ++ s ∧
          injectReload sampleDoc = p ++ snippet ++ (bodyClose ++ s) ∧
          ∀ j, j < p.length →
            bodyClose.isPrefixOf (sampleDoc.drop j) = false) ∧
      (containsSub sampleDoc bodyClose = false →
        injectReload sampleDoc = sampleDoc ++ snippet)) ∧
    (occCount HeadVariant.snippet (HeadVariant.injectReload sampleDoc) = 1 ∧
      (containsSub sampleDoc HeadVariant.headOpen = true →
        ∃ p s, sampleDoc = p ++ HeadVariant.headOpen ++ s ∧
          HeadVariant.injectReload sampleDoc =
            (p ++ HeadVariant.headOpen) ++ HeadVariant.snippet ++ s ∧
          ∀ j, j < p.length →
            HeadVariant.headOpen.isPrefixOf (sampleDoc.drop j) = false) ∧
      (containsSub sampleDoc HeadVariant.headOpen = false →
        HeadVariant.injectReload sampleDoc
          = sampleDoc ++ HeadVariant.snippet))) :=
  ⟨by decide, by decide,
    injectReload_snippet_once sampleDoc (by decide) (by decide)⟩

/-- Claim C4: `isExcluded(P, L)` is true iff some entry of `L` is both
non-empty and a substring of `P`; a list with only empty entries excludes
nothing; and `isIgnored` (the other variants' name) is the same predicate. -/
theorem isExcluded_substring_iff (P : List Char) (L : List (List Char)) :
    (isExcluded P L = true ↔ ∃ e ∈ L, e ≠ [] ∧ e <:+: P) ∧
    ((∀ e ∈ L, e = []) → isExcluded P L = false) ∧
    isIgnored P L = isExcluded P L := by
  have hiff : isExcluded P L = true ↔ ∃ e ∈ L, e ≠ [] ∧ e <:+: P := by
    rw [isExcluded, List.any_eq_true]
    constructor
    · rintro ⟨e, he, hb⟩
      rcases Bool.and_eq_true_iff.mp hb with ⟨h1, h2⟩
      refine ⟨e, he, ?_, (containsSub_iff P e).mp h2⟩
      intro hnil
      subst hnil
      simp at h1
    · rintro ⟨e, he, hne, hinf⟩
      refine ⟨e, he, Bool.and_eq_true_iff.mpr ⟨?_, (containsSub_iff P e).mpr hinf⟩⟩
      cases e with
      | nil => exact absurd rfl hne
      | cons a l => simp
  refine ⟨hiff, ?_, rfl⟩
  intro hall
  cases hx : isExcluded P L
  · rfl
  · obtain ⟨e, he, hne, _⟩ := hiff.mp hx
    exact absurd (hall e he) hne

/-- Witness for C4 at concrete inputs: a matching non-empty entry, and an
all-empty exclusion list. -/
theorem isExcluded_substring_iff_wit :
    (isExcluded ("a.git").data [(".git").data] = true ↔
      ∃ e ∈ [(".git").data], e ≠ [] ∧ e <:+: ("a.git").data) ∧
    isExcluded ("a.git").data [[], []] = false :=
  ⟨(isExcluded_substring_iff ("a.git").data [(".git").data]).1,
    (isExcluded_substring_iff ("a.git").data [[], []]).2.1 (by decide)⟩

/-- Model of the `trigger` closure of `watch` in `main.go`.  A `time.Timer`
is modelled by its scheduled fire time; `trigger d now s` models
`timer.Stop(); timer = time.AfterFunc(d, r.notify)` at time `now`.  The
first component collects the fire time of a previously armed timer that had
already fired (`f ≤ now`, so `Stop` came too late); a not-yet-fired timer
(`now < f`) is cancelled and contributes nothing. -/
def trigger (d now : Nat) (timer : Option Nat) : List Nat × Option Nat :=
  ((match timer with
    | some f => if f ≤ now then [f] else []
    | none => []),
   some (now + d))

/-- Run the `main.go` coalescer over a time-stamped trace of accepted
events; a timer still pending after the last event eventually fires.  The
result lists the times at which `r.notify()` runs. -/
def runTriggers (d : Nat) (timer : Option Nat) : List Nat → List Nat
  | [] => timer.toList
  | t :: ts => (trigger d t timer).1 ++ runTriggers d (trigger d t timer).2 ts

/-- Notification times produced by a trace of accepted events starting with
no timer armed. -/
def notifyTimes (d : Nat) (ts : List Nat) : List Nat := runTriggers d none ts

/-- Executable burst condition: the trace is nondecreasing and consecutive
events are separated by less than the debounce duration `d`. -/
def burstChain (d : Nat) : List Nat → Bool
  | [] => true
  | [_] => true
  | a :: b :: rest =>
    decide (a ≤ b) && decide (b < a + d) && burstChain d (b :: rest)

/-- Filesystem event as seen by `watchState.trigger` of the third variant:
the path and the outcome of `os.Stat` at handling time (`none` = stat
error; otherwise whether the path is a directory, and its mtime). -/
structure WSEvent where
  path : List Char
  stat : Option (Bool × Nat)
deriving DecidableEq

/-- Model of `watchState` (third variant): last seen modification time per
path, plus the debounce timer (as its scheduled fire time). -/
structure WatchState where
  lastMod : List (List Char × Nat)
  timer : Option Nat
deriving DecidableEq

/-- Lookup in the `lastMod` map (association list). -/
def lmLookup (lm : List (List Char × Nat)) (p : List Char) : Option Nat :=
  match lm with
  | [] => none
  | q :: rest => if q.1 = p then some q.2 else lmLookup rest p

/-- Map update `lastMod[path] = mod` (new binding shadows the old one). -/
def lmInsert (lm : List (List Char × Nat)) (p : List Char) (t : Nat) :
    List (List Char × Nat) :=
  (p, t) :: lm

/-- Model of `watchState.trigger` from the third variant: return early on a
stat error, a directory, or a modification time that is not strictly newer
than the recorded one; otherwise record the mtime, cancel a pending timer
and re-arm at `now + delay`.  Emission of already-fired timers as in
`trigger`. -/
def WatchState.trigger (ws : WatchState) (ev : WSEvent) (delay now : Nat) :
    List Nat × WatchState :=
  match ev.stat with
  | none => ([], ws)
  | some (dir, m) =>
    if dir then ([], ws)
    else
      match lmLookup ws.lastMod ev.path with
      | some last =>
        if m ≤ last then ([], ws)
        else
          ((match ws.timer with
            | some f => if f ≤ now then [f] else []
            | none => []),
           ⟨lmInsert ws.lastMod ev.path m, some (now + delay)⟩)
      | none =>
        ((match ws.timer with
          | some f => if f ≤ now then [f] else []
          | none => []),
         ⟨lmInsert ws.lastMod ev.path m, some (now + delay)⟩)

/-- Run `watchState.trigger` over a time-stamped event trace; a pending
timer fires after the trace ends. -/
def wsRun (delay : Nat) (ws : WatchState) : List (Nat × WSEvent) → List Nat
  | [] => ws.timer.toList
  | (t, e) :: rest =>
    (ws.trigger e delay t).1 ++ wsRun delay (ws.trigger e delay t).2 rest

/-- Acceptance check of `watchState.trigger`: the event stats as a regular
file whose modification time is strictly newer than the recorded one. -/
def WSEvent.accepted (ev : WSEvent) (lm : List (List Char × Nat)) : Bool :=
  match ev.stat with
  | none => false
  | some (dir, m) =>
    !dir && (match lmLookup lm ev.path with
             | some last => decide (last < m)
             | none => true)

/-- Modification time carried by an event (0 when the stat failed). -/
def WSEvent.modTime (ev : WSEvent) : Nat :=
  match ev.stat with
  | some (_, m) => m
  | none => 0

/-- Every event of the trace passes the acceptance check at its turn. -/
def wsAllAccepted (lm : List (List Char × Nat)) :
    List (Nat × WSEvent) → Bool
  | [] => true
  | (_, e) :: rest =>
    e.accepted lm && wsAllAccepted (lmInsert lm e.path e.modTime) rest

theorem wsTrigger_accepted (ws : WatchState) (ev : WSEvent) (delay now : Nat)
    (h : ev.accepted ws.lastMod = true) :
    ws.trigger ev delay now =
      ((match ws.timer with
        | some f => if f ≤ now then [f] else []
        | none => []),
       ⟨lmInsert ws.lastMod ev.path ev.modTime, some (now + delay)⟩) := by
  rcases ev with ⟨p, st⟩
  cases st with
  | none => simp [WSEvent.accepted] at h
  | some pr =>
    obtain ⟨dir, m⟩ := pr
    cases dir
    · rw [WSEvent.accepted] at h
      simp only [Bool.not_false, Bool.true_and] at h
      rw [WatchState.trigger, WSEvent.modTime]
      cases hl : lmLookup ws.lastMod p with
      | none => simp
      | some last =>
        rw [hl] at h
        have hlt : last < m := of_decide_eq_true h
        simp [Nat.not_le.mpr hlt]
    · rw [WSEvent.accepted] at h
      simp at h

theorem runTriggers_sup (d f t : Nat) (rest : List Nat) (hlt : t < f) :
    runTriggers d (some f) (t :: rest) = runTriggers d none (t :: rest) := by
  have hnle : ¬ f ≤ t := by omega
  simp only [runTriggers, trigger, hnle, if_false]

theorem notifyTimes_burst_aux (d : Nat) :
    ∀ ts : List Nat, ∀ h : ts ≠ [], burstChain d ts = true →
      runTriggers d none ts = [ts.getLast h + d] := by
  intro ts
  induction ts with
  | nil => intro h; exact absurd rfl h
  | cons t rest ih =>
    intro h hb
    cases rest with
    | nil => simp [runTriggers, trigger]
    | cons t' rest' =>
      rw [burstChain] at hb
      have hb' : burstChain d (t' :: rest') = true :=
        (Bool.and_eq_true_iff.mp hb).2
      have hlt : t' < t + d :=
        of_decide_eq_true (Bool.and_eq_true_iff.mp (Bool.and_eq_true_iff.mp hb).1).2
      have step1 : runTriggers d none (t :: t' :: rest') =
          runTriggers d (some (t + d)) (t' :: rest') := by
        simp [runTriggers, trigger]
      rw [step1, runTriggers_sup d (t + d) t' rest' hlt,
        ih (by simp) hb']
      rfl

theorem wsRun_sup (delay f t : Nat) (e : WSEvent)
    (lm : List (List Char × Nat)) (rest : List (Nat × WSEvent))
    (hacc : e.accepted lm = true) (hlt : t < f) :
    wsRun delay ⟨lm, some f⟩ ((t, e) :: rest) =
      wsRun delay ⟨lm, none⟩ ((t, e) :: rest) := by
  have hnle : ¬ f ≤ t := by omega
  simp only [wsRun]
  rw [wsTrigger_accepted ⟨lm, some f⟩ e delay t hacc,
    wsTrigger_accepted ⟨lm, none⟩ e delay t hacc]
  simp [hnle]

theorem wsRun_burst_aux (delay : Nat) :
    ∀ evs : List (Nat × WSEvent), ∀ lm : List (List Char × Nat),
      ∀ h : evs ≠ [],
      burstChain delay (evs.map Prod.fst) = true →
      wsAllAccepted lm evs = true →
      wsRun delay ⟨lm, none⟩ evs = [(evs.getLast h).1 + delay] := by
  intro evs
  induction evs with
  | nil => intro lm h; exact absurd rfl h
  | cons te rest ih =>
    obtain ⟨t, e⟩ := te
    intro lm h hb ha
    rw [wsAllAccepted] at ha
    have hacc : e.accepted lm = true := (Bool.and_eq_true_iff.mp ha).1
    have ha' : wsAllAccepted (lmInsert lm e.path e.modTime) rest = true :=
      (Bool.and_eq_true_iff.mp ha).2
    cases rest with
    | nil =>
      simp only [wsRun]
      rw [wsTrigger_accepted ⟨lm, none⟩ e delay t hacc]
      simp [wsRun]
    | cons te' rest' =>
      obtain ⟨t', e'⟩ := te'
      simp only [List.map_cons] at hb
      rw [burstChain] at hb
      have hb' : burstChain delay (((t', e') :: rest').map Prod.fst) = true :=
        by simpa using (Bool.and_eq_true_iff.mp hb).2
      have hlt : t' < t + delay :=
        of_decide_eq_true (Bool.and_eq_true_iff.mp (Bool.and_eq_true_iff.mp hb).1).2
      have hacc' : e'.accepted (lmInsert lm e.path e.modTime) = true := by
        rw [wsAllAccepted] at ha'
        exact (Bool.and_eq_true_iff.mp ha').1
      have step1 : wsRun delay ⟨lm, none⟩ ((t, e) :: (t', e') :: rest') =
          wsRun delay ⟨lmInsert lm e.path e.modTime, some (t + delay)⟩
            ((t', e') :: rest') := by
        simp only [wsRun]
        rw [wsTrigger_accepted ⟨lm, none⟩ e delay t hacc]
        simp
      rw [step1,
        wsRun_sup delay (t + delay) t' e' _ rest' hacc' hlt,
        ih (lmInsert lm e.path e.modTime) (by simp) hb' ha']
      rfl

/-- Counterexample to claim C1 as stated: in the `watchState` variant, two
non-excluded change events one time unit apart (debounce 10) on the same
file with an unchanged modification time (a duplicate fsnotify event)
produce their single notification at time 0 + 10, not at 1 + 10 as the
claim requires — the stale second event does not re-arm the timer. -/
theorem wsTrigger_stale_burst_cex :
    wsRun 10 ⟨[], none⟩
      [(0, ⟨['a'], some (false, 5)⟩), (1, ⟨['a'], some (false, 5)⟩)]
      = [10] ∧
    ([10] : List Nat) ≠ [1 + 10] := by
  constructor
  · decide
  · decide

/-- Claim C1 (amended): for every burst of N ≥ 1 accepted change events in
which consecutive events are separated by less than the debounce duration —
non-excluded events in the `main.go` variants, and events that additionally
stat as regular files with strictly newer modification times in the
`watchState` variant — exactly one notification is produced, fired one
debounce duration after the last event of the burst. -/
theorem burst_single_notification (d : Nat) (ts : List Nat) (h : ts ≠ [])
    (hb : burstChain d ts = true)
    (evs : List (Nat × WSEvent)) (h2 : evs ≠ [])
    (hb2 : burstChain d (evs.map Prod.fst) = true)
    (ha : wsAllAccepted [] evs = true) :
    notifyTimes d ts = [ts.getLast h + d] ∧
    wsRun d ⟨[], none⟩ evs = [(evs.getLast h2).1 + d] :=
  ⟨notifyTimes_burst_aux d ts h hb, wsRun_burst_aux d evs [] h2 hb2 ha⟩

/-- Witness for C1 (amended) on a two-event burst. -/
theorem burst_single_notification_wit :
    notifyTimes 10 [0, 5] = [5 + 10] ∧
    wsRun 10 ⟨[], none⟩
      [(0, ⟨['a'], some (false, 1)⟩), (5, ⟨['a'], some (false, 2)⟩)]
      = [5 + 10] :=
  burst_single_notification 10 [0, 5] (by decide) (by decide)
    [(0, ⟨['a'], some (false, 1)⟩), (5, ⟨['a'], some (false, 2)⟩)]
    (by decide) (by decide) (by decide)

/-- Claim C7: every `trigger()` call for an accepted change event cancels
any existing not-yet-fired timer and schedules a new timer one debounce
duration ahead; a timer that fires (no trigger during its window) invokes
`notify` exactly once.  Stated for the `main.go` closure and for
`watchState.trigger`. -/
theorem trigger_cancel_rearm (d now : Nat) (s : Option Nat)
    (ws : WatchState) (ev : WSEvent) :
    (trigger d now s).2 = some (now + d) ∧
    (∀ f, s = some f → now < f → (trigger d now s).1 = []) ∧
    (∀ f, s = some f → f ≤ now → (trigger d now s).1 = [f]) ∧
    (∀ f, runTriggers d (some f) [] = [f]) ∧
    (ev.accepted ws.lastMod = true →
      ((ws.trigger ev d now).2).timer = some (now + d) ∧
      (∀ f, ws.timer = some f → now < f → (ws.trigger ev d now).1 = []) ∧
      (∀ f, ws.timer = some f → f ≤ now → (ws.trigger ev d now).1 = [f]) ∧
      wsRun d (ws.trigger ev d now).2 [] = [now + d]) := by
  refine ⟨rfl, ?_, ?_, fun f => rfl, fun hacc => ?_⟩
  · intro f hs hlt
    subst hs
    rw [trigger]
    simp [Nat.not_le.mpr hlt]
  · intro f hs hle
    subst hs
    rw [trigger]
    simp [hle]
  · rw [wsTrigger_accepted ws ev d now hacc]
    refine ⟨rfl, ?_, ?_, rfl⟩
    · intro f hs hlt
      rw [hs]
      simp [Nat.not_le.mpr hlt]
    · intro f hs hle
      rw [hs]
      simp [hle]

/-- Witness for C7 at concrete timer states. -/
theorem trigger_cancel_rearm_wit :
    (trigger 10 3 (some 7)).2 = some 13 ∧
    (trigger 10 3 (some 7)).1 = [] ∧
    (trigger 10 12 (some 7)).1 = [7] ∧
    runTriggers 10 (some 7) [] = [7] ∧
    (WatchState.trigger ⟨[], some 7⟩ ⟨['a'], some (false, 5)⟩ 10 3).2.timer
      = some 13 ∧
    (WatchState.trigger ⟨[], some 7⟩ ⟨['a'], some (false, 5)⟩ 10 3).1
      = [] := by
  obtain ⟨a1, a2, _, a4, a5⟩ :=
    trigger_cancel_rearm 10 3 (some 7) ⟨[], some 7⟩ ⟨['a'], some (false, 5)⟩
  obtain ⟨b1, b2, _, _⟩ := a5 (by decide)
  obtain ⟨_, _, c3, _, _⟩ :=
    trigger_cancel_rearm 10 12 (some 7) ⟨[], none⟩ ⟨['a'], none⟩
  exact ⟨a1, a2 7 rfl (by decide), c3 7 rfl (by decide), a4 7, b1,
    b2 7 rfl (by decide)⟩

/-- A Go `chan struct{}` with buffer capacity 1: number of buffered signals
and whether the channel has been closed. -/
structure Chan where
  buf : Nat
  closed : Bool
deriving DecidableEq

/-- Model of the `reloader`: fresh-handle counter, the registered client
set (`clients` map keys), and the state of every channel ever created. -/
structure Reloader where
  nextId : Nat
  clients : List Nat
  chans : List (Nat × Chan)
deriving DecidableEq

/-- Look up a channel by handle. -/
def chanGet (chans : List (Nat × Chan)) (h : Nat) : Option Chan :=
  match chans with
  | [] => none
  | q :: rest => if q.1 = h then some q.2 else chanGet rest h

/-- Replace the channel stored under handle `h`. -/
def chanSet (chans : List (Nat × Chan)) (h : Nat) (c : Chan) :
    List (Nat × Chan) :=
  chans.map fun q => if q.1 = h then (h, c) else q

/-- Model of `newReloader()`. -/
def newReloader : Reloader := ⟨0, [], []⟩

/-- Model of `reloader.add`: create a buffered single-slot channel and
register it under a fresh handle. -/
def Reloader.add (r : Reloader) : Nat × Reloader :=
  (r.nextId,
   ⟨r.nextId + 1, r.nextId :: r.clients, (r.nextId, ⟨0, false⟩) :: r.chans⟩)

/-- Model of `reloader.remove`: deregister the handle and `close` its
channel.  The boolean records a Go runtime panic: `close` of an
already-closed channel panics. -/
def Reloader.remove (r : Reloader) (h : Nat) : Reloader × Bool :=
  match chanGet r.chans h with
  | some c =>
    if c.closed then ({ r with clients := r.clients.erase h }, true)
    else ({ r with
            clients := r.clients.erase h
            chans := chanSet r.chans h ⟨c.buf, true⟩ }, false)
  | none => ({ r with clients := r.clients.erase h }, false)

/-- Non-blocking send into a single-slot channel (`select` with `default`):
drop the signal when the buffer is full.  The boolean records a Go runtime
panic: sending on a closed channel panics even inside `select`. -/
def sendNB (c : Chan) : Chan × Bool :=
  if c.closed then (c, true)
  else if c.buf < 1 then (⟨c.buf + 1, c.closed⟩, false)
  else (c, false)

/-- Channel states after `notify` performed one non-blocking send per
registered client. -/
def notifyChans (clients : List Nat) (chans : List (Nat × Chan)) :
    List (Nat × Chan) :=
  match clients with
  | [] => chans
  | h :: rest =>
    match chanGet chans h with
    | some c => notifyChans rest (chanSet chans h (sendNB c).1)
    | none => notifyChans rest chans

/-- Whether some send of `notify` panicked (a registered channel was
closed); the fold never alters `closed` flags, so this may be computed on
the original channel states. -/
def notifyPanics (clients : List Nat) (chans : List (Nat × Chan)) : Bool :=
  clients.any fun h =>
    match chanGet chans h with
    | some c => (sendNB c).2
    | none => false

/-- Model of `reloader.notify`. -/
def Reloader.notify (r : Reloader) : Reloader × Bool :=
  ({ r with chans := notifyChans r.clients r.chans },
   notifyPanics r.clients r.chans)

/-- Well-formedness of a reloader state: every registered handle owns an
open channel, buffers hold at most one signal, handles are below the
fresh-handle counter, and handle lists are duplicate-free. -/
def Reloader.wf (r : Reloader) : Prop :=
  (∀ h ∈ r.clients, ∃ q ∈ r.chans, q.1 = h ∧ q.2.closed = false) ∧
  (∀ q ∈ r.chans, q.2.buf ≤ 1) ∧
  (∀ h ∈ r.clients, h < r.nextId) ∧
  (∀ q ∈ r.chans, q.1 < r.nextId) ∧
  (r.chans.map Prod.fst).Nodup ∧
  r.clients.Nodup

instance (r : Reloader) : Decidable r.wf := by
  unfold Reloader.wf
  infer_instance

theorem chanGet_mem {chans : List (Nat × Chan)} {h : Nat} {c : Chan}
    (hg : chanGet chans h = some c) : (h, c) ∈ chans := by
  induction chans with
  | nil => cases hg
  | cons q rest ih =>
    rw [chanGet] at hg
    by_cases hq : q.1 = h
    · rw [if_pos hq] at hg
      obtain ⟨a, b⟩ := q
      cases hq
      cases Option.some.injEq _ _ ▸ hg
      exact List.mem_cons_self _ _
    · rw [if_neg hq] at hg
      exact List.mem_cons_of_mem _ (ih hg)

theorem mem_chanGet {chans : List (Nat × Chan)} {h : Nat} {c : Chan}
    (hnd : (chans.map Prod.fst).Nodup) (hm : (h, c) ∈ chans) :
    chanGet chans h = some c := by
  induction chans with
  | nil => cases hm
  | cons q rest ih =>
    rw [List.map_cons, List.nodup_cons] at hnd
    rw [chanGet]
    rcases List.mem_cons.mp hm with heq | hm'
    · rw [← heq]
      simp
    · by_cases hq : q.1 = h
      · exfalso
        apply hnd.1
        rw [hq]
        exact List.mem_map_of_mem Prod.fst hm'
      · rw [if_neg hq]
        exact ih hnd.2 hm'

theorem chanGet_chanSet_self {chans : List (Nat × Chan)} {h : Nat}
    {c0 c : Chan} (hg : chanGet chans h = some c0) :
    chanGet (chanSet chans h c) h = some c := by
  induction chans with
  | nil => cases hg
  | cons q rest ih =>
    rw [chanGet] at hg
    rw [chanSet, List.map_cons]
    by_cases hq : q.1 = h
    · rw [if_pos hq, chanGet, if_pos rfl]
    · rw [if_neg hq, chanGet, if_neg hq]
      exact ih (by rw [if_neg hq] at hg; exact hg)

theorem chanGet_chanSet_ne {chans : List (Nat × Chan)} {h h' : Nat}
    {c : Chan} (hne : h' ≠ h) :
    chanGet (chanSet chans h c) h' = chanGet chans h' := by
  induction chans with
  | nil => rfl
  | cons q rest ih =>
    rw [chanSet, List.map_cons, chanGet, chanGet]
    by_cases hq : q.1 = h
    · rw [if_pos hq]
      rw [if_neg (show ¬ ((h, c) : Nat × Chan).1 = h' from
        fun hc => hne hc.symm)]
      rw [if_neg (show ¬ q.1 = h' from fun hc => hne (hc.symm.trans hq))]
      exact ih
    · rw [if_neg hq]
      by_cases hq' : q.1 = h'
      · rw [if_pos hq', if_pos hq']
      · rw [if_neg hq', if_neg hq']
        exact ih

theorem chanSet_keys (chans : List (Nat × Chan)) (h : Nat) (c : Chan) :
    (chanSet chans h c).map Prod.fst = chans.map Prod.fst := by
  induction chans with
  | nil => rfl
  | cons q rest ih =>
    rw [chanSet, List.map_cons, List.map_cons, List.map_cons]
    by_cases hq : q.1 = h
    · rw [if_pos hq]
      rw [chanSet] at ih
      rw [ih, hq]
    · rw [if_neg hq]
      rw [chanSet] at ih
      rw [ih]

theorem mem_chanSet {chans : List (Nat × Chan)} {h : Nat} {c : Chan}
    {q : Nat × Chan} (hm : q ∈ chanSet chans h c) :
    q = (h, c) ∨ q ∈ chans := by
  rw [chanSet] at hm
  obtain ⟨p, hp, hpe⟩ := List.mem_map.mp hm
  by_cases hq : p.1 = h
  · rw [if_pos hq] at hpe
    exact Or.inl hpe.symm
  · rw [if_neg hq] at hpe
    exact Or.inr (hpe ▸ hp)

theorem sendNB_closed (c : Chan) : ((sendNB c).1).closed = c.closed := by
  obtain ⟨b, cl⟩ := c
  cases cl <;> by_cases hb : b < 1 <;> simp [sendNB, hb]

theorem sendNB_panic (c : Chan) : (sendNB c).2 = c.closed := by
  obtain ⟨b, cl⟩ := c
  cases cl <;> by_cases hb : b < 1 <;> simp [sendNB, hb]

theorem sendNB_buf_le (c : Chan) (hb : c.buf ≤ 1) :
    ((sendNB c).1).buf ≤ 1 := by
  obtain ⟨b, cl⟩ := c
  have hb' : b ≤ 1 := hb
  cases cl <;> by_cases h1 : b < 1 <;> simp [sendNB, h1] <;> omega

theorem sendNB_one (c : Chan) (hb : c.buf ≤ 1) (hcl : c.closed = false) :
    (sendNB c).1 = ⟨1, false⟩ := by
  obtain ⟨b, cl⟩ := c
  have hb' : b ≤ 1 := hb
  cases cl
  · by_cases h1 : b < 1
    · have hz : b = 0 := by omega
      subst hz
      rfl
    · have ho : b = 1 := by omega
      subst ho
      rfl
  · cases hcl

theorem notifyChans_get_not_mem {clients : List Nat}
    {chans : List (Nat × Chan)} {h : Nat} (hh : h ∉ clients) :
    chanGet (notifyChans clients chans) h = chanGet chans h := by
  induction clients generalizing chans with
  | nil => rfl
  | cons h' rest ih =>
    have hne : h ≠ h' := fun hc => hh (hc ▸ List.mem_cons_self h' rest)
    have hh' : h ∉ rest := fun hc => hh (List.mem_cons_of_mem _ hc)
    cases hg : chanGet chans h' with
    | none =>
      simp only [notifyChans, hg]
      exact ih hh'
    | some c =>
      simp only [notifyChans, hg]
      rw [ih hh']
      exact chanGet_chanSet_ne hne

theorem notifyChans_get_mem {clients : List Nat} {chans : List (Nat × Chan)}
    {h : Nat} (hnd : clients.Nodup) (hm : h ∈ clients) :
    chanGet (notifyChans clients chans) h
      = (chanGet chans h).map (fun c => (sendNB c).1) := by
  induction clients generalizing chans with
  | nil => cases hm
  | cons h' rest ih =>
    by_cases he : h = h'
    · cases he
      have hnr : h ∉ rest := (List.nodup_cons.mp hnd).1
      cases hg : chanGet chans h with
      | none =>
        simp only [notifyChans, hg]
        rw [notifyChans_get_not_mem hnr, hg]
        rfl
      | some c =>
        simp only [notifyChans, hg]
        rw [notifyChans_get_not_mem hnr, chanGet_chanSet_self hg]
        rfl
    · have hm' : h ∈ rest := by
        rcases List.mem_cons.mp hm with hc | hc
        · exact absurd hc he
        · exact hc
      have hnd' : rest.Nodup := (List.nodup_cons.mp hnd).2
      cases hg : chanGet chans h' with
      | none =>
        simp only [notifyChans, hg]
        exact ih hnd' hm'
      | some c =>
        simp only [notifyChans, hg]
        rw [ih hnd' hm', chanGet_chanSet_ne he]

theorem notifyChans_keys (clients : List Nat) (chans : List (Nat × Chan)) :
    (notifyChans clients chans).map Prod.fst = chans.map Prod.fst := by
  induction clients generalizing chans with
  | nil => rfl
  | cons h' rest ih =>
    cases hg : chanGet chans h' with
    | none =>
      simp only [notifyChans, hg]
      exact ih chans
    | some c =>
      simp only [notifyChans, hg]
      rw [ih, chanSet_keys]

theorem notifyChans_buf (clients : List Nat) (chans : List (Nat × Chan))
    (hb : ∀ q ∈ chans, q.2.buf ≤ 1) :
    ∀ q ∈ notifyChans clients chans, q.2.buf ≤ 1 := by
  induction clients generalizing chans with
  | nil => exact hb
  | cons h' rest ih =>
    cases hg : chanGet chans h' with
    | none =>
      simp only [notifyChans, hg]
      exact ih chans hb
    | some c =>
      simp only [notifyChans, hg]
      apply ih
      intro q hq
      rcases mem_chanSet hq with hq' | hq'
      · rw [hq']
        exact sendNB_buf_le c (hb _ (chanGet_mem hg))
      · exact hb q hq'

theorem wf_notify {r : Reloader} (hw : r.wf) :
    (r.notify).2 = false ∧ ((r.notify).1).wf := by
  obtain ⟨hW1, hW2, hW3, hW4, hW5, hW6⟩ := hw
  constructor
  · show notifyPanics r.clients r.chans = false
    rw [notifyPanics]
    cases hx : r.clients.any fun h =>
        match chanGet r.chans h with
        | some c => (sendNB c).2
        | none => false
    · rfl
    · exfalso
      obtain ⟨h, hm, hp⟩ := List.any_eq_true.mp hx
      obtain ⟨q, hq, hq1, hq2⟩ := hW1 h hm
      have hmem : (h, q.2) ∈ r.chans := by
        obtain ⟨a, b⟩ := q
        cases hq1
        exact hq
      have hg : chanGet r.chans h = some q.2 := mem_chanGet hW5 hmem
      simp only [hg] at hp
      rw [sendNB_panic, hq2] at hp
      cases hp
  · refine ⟨?_, ?_, hW3, ?_, ?_, hW6⟩
    · intro h hm
      obtain ⟨q, hq, hq1, hq2⟩ := hW1 h hm
      have hmem : (h, q.2) ∈ r.chans := by
        obtain ⟨a, b⟩ := q
        cases hq1
        exact hq
      have hg : chanGet r.chans h = some q.2 := mem_chanGet hW5 hmem
      have hg' : chanGet (notifyChans r.clients r.chans) h
          = some (sendNB q.2).1 := by
        rw [notifyChans_get_mem hW6 hm, hg]
        rfl
      refine ⟨(h, (sendNB q.2).1), chanGet_mem hg', rfl, ?_⟩
      rw [sendNB_closed, hq2]
    · exact notifyChans_buf r.clients r.chans hW2
    · intro q hq
      have hk : q.1 ∈ (notifyChans r.clients r.chans).map Prod.fst :=
        List.mem_map_of_mem Prod.fst hq
      rw [notifyChans_keys] at hk
      obtain ⟨p, hp, hpe⟩ := List.mem_map.mp hk
      exact hpe ▸ hW4 p hp
    · show ((notifyChans r.clients r.chans).map Prod.fst).Nodup
      rw [notifyChans_keys]
      exact hW5

theorem wf_remove {r : Reloader} (hw : r.wf) (hnd : Nat) :
    ((r.remove hnd).1).wf := by
  obtain ⟨hW1, hW2, hW3, hW4, hW5, hW6⟩ := hw
  have herase : ∀ h ∈ r.clients.erase hnd, h ∈ r.clients ∧ h ≠ hnd := by
    intro h hm
    have := hW6.mem_erase_iff.mp hm
    exact ⟨this.2, this.1⟩
  cases hg : chanGet r.chans hnd with
  | none =>
    simp only [Reloader.remove, hg]
    refine ⟨?_, hW2, ?_, hW4, hW5, hW6.erase hnd⟩
    · intro h hm
      exact hW1 h (herase h hm).1
    · intro h hm
      exact hW3 h (herase h hm).1
  | some c =>
    by_cases hc : c.closed = true
    · simp only [Reloader.remove, hg]
      rw [if_pos hc]
      refine ⟨?_, hW2, ?_, hW4, hW5, hW6.erase hnd⟩
      · intro h hm
        exact hW1 h (herase h hm).1
      · intro h hm
        exact hW3 h (herase h hm).1
    · simp only [Reloader.remove, hg]
      rw [if_neg hc]
      refine ⟨?_, ?_, ?_, ?_, ?_, hW6.erase hnd⟩
      · intro h hm
        obtain ⟨hmem, hne⟩ := herase h hm
        obtain ⟨q, hq, hq1, hq2⟩ := hW1 h hmem
        refine ⟨q, ?_, hq1, hq2⟩
        show q ∈ chanSet r.chans hnd ⟨c.buf, true⟩
        rw [chanSet]
        have hqne : ¬ q.1 = hnd := fun hx => hne (hq1.symm.trans hx)
        have hfix : (fun p : Nat × Chan =>
            if p.1 = hnd then (hnd, (⟨c.buf, true⟩ : Chan)) else p) q = q := by
          simp only [if_neg hqne]
        exact hfix ▸ List.mem_map_of_mem _ hq
      · intro q hq
        rcases mem_chanSet hq with hq' | hq'
        · rw [hq']
          show c.buf ≤ 1
          exact hW2 (hnd, c) (chanGet_mem hg)
        · exact hW2 q hq'
      · intro h hm
        exact hW3 h (herase h hm).1
      · intro q hq
        have hk : q.1 ∈ (chanSet r.chans hnd ⟨c.buf, true⟩).map Prod.fst :=
          List.mem_map_of_mem Prod.fst hq
        rw [chanSet_keys] at hk
        obtain ⟨p, hp, hpe⟩ := List.mem_map.mp hk
        exact hpe ▸ hW4 p hp
      · show ((chanSet r.chans hnd ⟨c.buf, true⟩).map Prod.fst).Nodup
        rw [chanSet_keys]
        exact hW5

/-- Claim C2: for every registered client the pending-signal buffer holds
at most one signal: after `notify()` exactly one signal is pending for the
client, and a second `notify()` before the client consumes it leaves still
exactly one pending signal — never a second queued frame. -/
theorem notify_single_slot (r : Reloader) (hw : r.wf) (h : Nat)
    (hm : h ∈ r.clients) :
    chanGet ((r.notify).1).chans h = some ⟨1, false⟩ ∧
    chanGet (((r.notify).1.notify).1).chans h = some ⟨1, false⟩ := by
  obtain ⟨hW1, hW2, _, _, hW5, hW6⟩ := hw
  obtain ⟨q, hq, hq1, hq2⟩ := hW1 h hm
  have hmem : (h, q.2) ∈ r.chans := by
    obtain ⟨a, b⟩ := q
    cases hq1
    exact hq
  have hg : chanGet r.chans h = some q.2 := mem_chanGet hW5 hmem
  have hbuf : q.2.buf ≤ 1 := hW2 q hq
  have hone : (sendNB q.2).1 = ⟨1, false⟩ := sendNB_one q.2 hbuf hq2
  have hfirst : chanGet ((r.notify).1).chans h = some ⟨1, false⟩ := by
    show chanGet (notifyChans r.clients r.chans) h = some ⟨1, false⟩
    rw [notifyChans_get_mem hW6 hm, hg]
    simp [hone]
  refine ⟨hfirst, ?_⟩
  show chanGet (notifyChans r.clients (notifyChans r.clients r.chans)) h
    = some ⟨1, false⟩
  rw [notifyChans_get_mem hW6 hm]
  have : chanGet (notifyChans r.clients r.chans) h = some ⟨1, false⟩ :=
    hfirst
  rw [this]
  simp [sendNB]

/-- Witness for C2: a fresh reloader with one added client. -/
theorem notify_single_slot_wit :
    chanGet ((((newReloader.add).2).notify).1).chans 0 = some ⟨1, false⟩ ∧
    chanGet (((((newReloader.add).2).notify).1.notify).1).chans 0
      = some ⟨1, false⟩ :=
  notify_single_slot (newReloader.add).2 (by decide) 0 (by decide)

/-- Claim C6: after `remove(ch)` the handle is no longer a member of the
ClientSet; the state stays well-formed; `notify` on the resulting state
panics on no closed channel (its panic flag is false) and preserves
well-formedness (so every later `notify` is equally safe); and an
add/remove cycle leaves no leaked ClientSet entry. -/
theorem remove_then_notify_safe (r : Reloader) (hw : r.wf) (hnd : Nat) :
    hnd ∉ ((r.remove hnd).1).clients ∧
    ((r.remove hnd).1).wf ∧
    (((r.remove hnd).1).notify).2 = false ∧
    ((((r.remove hnd).1).notify).1).wf ∧
    ((r.add.2).remove r.add.1).1.clients = r.clients := by
  have hwr := wf_remove hw hnd
  have hn := wf_notify hwr
  refine ⟨?_, hwr, hn.1, hn.2, ?_⟩
  · have hcl : ((r.remove hnd).1).clients = r.clients.erase hnd := by
      cases hg : chanGet r.chans hnd with
      | none => simp only [Reloader.remove, hg]
      | some c =>
        by_cases hc : c.closed = true
        · simp only [Reloader.remove, hg, if_pos hc]
        · simp only [Reloader.remove, hg, if_neg hc]
    rw [hcl]
    intro hcon
    exact ((hw.2.2.2.2.2).mem_erase_iff.mp hcon).1 rfl
  · show ((Reloader.remove ⟨r.nextId + 1, r.nextId :: r.clients,
      (r.nextId, ⟨0, false⟩) :: r.chans⟩ r.nextId).1).clients = r.clients
    have hgx : chanGet ((r.nextId, (⟨0, false⟩ : Chan)) :: r.chans) r.nextId
        = some ⟨0, false⟩ := by
      rw [chanGet]
      simp
    simp only [Reloader.remove, hgx]
    simp

/-- Witness for C6: a fresh reloader with one added client, removing it. -/
theorem remove_then_notify_safe_wit :
    0 ∉ ((((newReloader.add).2).remove 0).1).clients ∧
    ((((newReloader.add).2).remove 0).1).wf ∧
    (((((newReloader.add).2).remove 0).1).notify).2 = false ∧
    ((((((newReloader.add).2).remove 0).1).notify).1).wf ∧
    (((((newReloader.add).2).add).2).remove
      ((newReloader.add).2).add.1).1.clients
      = ((newReloader.add).2).clients :=
  remove_then_notify_safe (newReloader.add).2 (by decide) 0

/-- Counterexample to claim C8 as stated: removing the same handle twice
panics — the second `close` hits an already-closed channel, so the second
call does not complete without panic (the panic flag is true). -/
theorem remove_twice_panics_cex :
    ((((newReloader.add).2.remove 0).1).remove 0).2 = true := by decide

/-- Claim C8 (amended): a second `remove` with the same handle leaves the
entire reloader state — in particular the ClientSet — exactly as after the
first call (deleting an absent key is a no-op), but it panics when closing
the already-closed channel; the program itself calls `remove` exactly once
per connection, via `defer`. -/
theorem remove_twice_set_idempotent (r : Reloader) (hw : r.wf) (hnd : Nat)
    (hm : hnd ∈ r.clients) :
    ((r.remove hnd).1.remove hnd).1 = (r.remove hnd).1 ∧
    ((r.remove hnd).1.remove hnd).2 = true := by
  obtain ⟨hW1, hW2, hW3, hW4, hW5, hW6⟩ := hw
  obtain ⟨q, hq, hq1, hq2⟩ := hW1 hnd hm
  have hmem : (hnd, q.2) ∈ r.chans := by
    obtain ⟨a, b⟩ := q
    cases hq1
    exact hq
  have hg : chanGet r.chans hnd = some q.2 := mem_chanGet hW5 hmem
  have hncl : ¬ q.2.closed = true := by
    rw [hq2]
    exact Bool.false_ne_true
  have hr1 : (r.remove hnd).1 = { r with
      clients := r.clients.erase hnd
      chans := chanSet r.chans hnd ⟨q.2.buf, true⟩ } := by
    simp only [Reloader.remove, hg, if_neg hncl]
  have hg2 : chanGet (chanSet r.chans hnd ⟨q.2.buf, true⟩) hnd
      = some ⟨q.2.buf, true⟩ := chanGet_chanSet_self hg
  have hnomem : hnd ∉ r.clients.erase hnd := fun hc =>
    (hW6.mem_erase_iff.mp hc).1 rfl
  rw [hr1]
  constructor
  · simp [Reloader.remove, hg2, List.erase_of_not_mem hnomem]
  · simp [Reloader.remove, hg2]

/-- Witness for C8 (amended): a fresh reloader with one added client. -/
theorem remove_twice_set_idempotent_wit :
    ((((newReloader.add).2.remove 0).1).remove 0).1
      = ((newReloader.add).2.remove 0).1 ∧
    ((((newReloader.add).2.remove 0).1).remove 0).2 = true :=
  remove_twice_set_idempotent (newReloader.add).2 (by decide) 0 (by decide)

/-- A filesystem tree for modelling `filepath.WalkDir` traversals. -/
inductive FsEntry where
  | file (name : List Char)
  | dir (name : List Char) (children : List FsEntry)

/-- Path of a child entry (`filepath.Join`); the root keeps its own name. -/
def pathJoin (parent name : List Char) : List Char :=
  if parent = [] then name else parent ++ '/' :: name

mutual

/-- Model of the `filepath.WalkDir` callback in `main.go`'s `watch`,
together with Go's `WalkDir` skip semantics.  The callback returns
`filepath.SkipDir` whenever the path is ignored — for a directory this
skips the directory's contents; for a non-directory file Go skips the
remaining entries of the containing directory (the second component of the
result signals this to the enclosing `watchWalkList`).  A visited
non-ignored directory is registered (`watcher.Add`). -/
def watchWalkEntry (ignored : List (List Char)) (parent : List Char) :
    FsEntry → List (List Char) × Bool
  | .file name =>
    if isIgnored (pathJoin parent name) ignored then ([], true)
    else ([], false)
  | .dir name children =>
    if isIgnored (pathJoin parent name) ignored then ([], false)
    else (pathJoin parent name ::
      watchWalkList ignored (pathJoin parent name) children, false)

/-- Traversal of a directory's entries in order, honouring the
stop-remaining-siblings signal produced by an ignored file. -/
def watchWalkList (ignored : List (List Char)) (parent : List Char) :
    List FsEntry → List (List Char)
  | [] => []
  | e :: rest =>
    if (watchWalkEntry ignored parent e).2 then
      (watchWalkEntry ignored parent e).1
    else (watchWalkEntry ignored parent e).1 ++ watchWalkList ignored parent rest

end

mutual

/-- Model of `watchDirRecursive` from the third variant: an ignored
directory returns `filepath.SkipDir` (subtree skipped), an ignored file
returns `nil` (only that entry skipped), and every visited non-ignored
directory is registered. -/
def watchDirEntry (ignored : List (List Char)) (parent : List Char) :
    FsEntry → List (List Char)
  | .file name =>
    if isIgnored (pathJoin parent name) ignored then [] else []
  | .dir name children =>
    if isIgnored (pathJoin parent name) ignored then []
    else pathJoin parent name ::
      watchDirList ignored (pathJoin parent name) children

/-- Traversal of a directory's entries for `watchDirRecursive` (no
sibling-skip signal: files never abort the listing). -/
def watchDirList (ignored : List (List Char)) (parent : List Char) :
    List FsEntry → List (List Char)
  | [] => []
  | e :: rest =>
    watchDirEntry ignored parent e ++ watchDirList ignored parent rest

end

/-- Claim C5, evaluated at the failing input (exclusion list `["skip"]`,
root `r` containing the excluded file `skip` followed by the non-excluded
directory `sub`): `main.go`'s walk callback returns `filepath.SkipDir` for
the excluded file, which by Go's `WalkDir` contract skips the remaining
entries of the containing directory, so only `r` is registered and `r/sub`
is never watched — contradicting the claim that only the single excluded
entry is skipped.  The `watchDirRecursive` variant behaves as the claim
states and registers both `r` and `r/sub`. -/
theorem walk_excluded_file_divergence :
    watchWalkEntry [['s', 'k', 'i', 'p']] []
        (.dir ['r'] [.file ['s', 'k', 'i', 'p'], .dir ['s', 'u', 'b'] []])
      = ([['r']], false) ∧
    ['r', '/', 's', 'u', 'b'] ∉
      (watchWalkEntry [['s', 'k', 'i', 'p']] []
        (.dir ['r'] [.file ['s', 'k', 'i', 'p'],
          .dir ['s', 'u', 'b'] []])).1 ∧
    watchDirEntry [['s', 'k', 'i', 'p']] []
        (.dir ['r'] [.file ['s', 'k', 'i', 'p'], .dir ['s', 'u', 'b'] []])
      = [['r'], ['r', '/', 's', 'u', 'b']] := by
  refine ⟨?_, ?_, ?_⟩
  · simp +decide [watchWalkEntry, watchWalkList, pathJoin]
  · simp +decide [watchWalkEntry, watchWalkList, pathJoin]
  · simp +decide [watchDirEntry, watchDirList, pathJoin]

/-- Frames pushed by the streaming endpoint of `reloader.endpoint` after
receiving `signals` reload signals: one `fmt.Fprint(w, "data: reload\n\n")`
per received signal, and nothing else. -/
def endpointWrites (signals : Nat) : List (List Char) :=
  List.replicate signals (("data: reload\n\n").data)

/-- Claim C9: every frame written to a connected streaming client is the
literal text `data: reload` followed by a blank line; no frame of any other
form is ever written. -/
theorem endpoint_frames (n : Nat) (f : List Char)
    (hf : f ∈ endpointWrites n) :
    f = ("data: reload").data ++ ['\n'] ++ ['\n'] := by
  have h := List.eq_of_mem_replicate hf
  rw [h]
  decide

/-- Witness for C9: the frame of a single-signal stream. -/
theorem endpoint_frames_wit :
    ("data: reload\n\n").data
      = ("data: reload").data ++ ['\n'] ++ ['\n'] :=
  endpoint_frames 1 (("data: reload\n\n").data) (by decide)
